import Mathlib

/-!
# ParallelPCA, pthreads version (`src/pthreads/main.c`)

A shallow embedding of the orchestration code of the pthreads PCA program:
the row partitioner and the thread-creation loop of `main`, the argument
checks of `main`, the counting barrier, the shared reductions performed by
the `PCA` worker (mean vector, global extrema), the rank-`t` truncation of
the singular values and the sequence of synchronisation points of a worker.

Conventions.
* The image dimensions `s`, `d`, the worker count `thread_count`, the loop
  variable `thread` and `barrier_counter` are natural numbers; on them C
  integer division and remainder are `/` and `%` of `Nat`.  Values that can
  be negative (`argc`, `t`, `style`, return codes) are integers.
* The running `int offset` of `main` is an integer reduced to 32 bits after
  every multiplication and addition (`int_wrap`): beyond `2^31 - 1` it wraps
  around, as it does on the usual targets.
* `double` values are rationals: every finite `double` is a rational number
  and the statements below are about exact arithmetic.
* Memory holding doubles is a function `Int → ℚ` from element index to
  value, index 0 being the first element of the image returned by
  `read_JPEG_to_matrix`; the image is the cells `0 .. s * d - 1` and the
  other cells stand for whatever lies around it.  The pointer `p + k` is the
  buffer `fun i => p (k + i)`.
-/

namespace ParallelPCA

/-! ## Partitioner and thread-creation loop (`main`, lines 217-236) -/

/-- The fields of `struct ThreadData` that `main` computes per worker.
`thread_img` is the element offset `offset` of the pointer `img + offset`
(a C `int`, so possibly negative after an overflow); the three shared
pointers `mean`, `st`, `et` are the same for all workers and are not
represented. -/
structure ThreadData where
  thread_img : Int
  thread_s : Nat
  thread_d : Nat
  rank : Nat
deriving DecidableEq, Repr

/-- Value of a C `int` (32 bits, two's complement) that receives the
mathematical result `x`: results outside `[-2^31, 2^31 - 1]` wrap around. -/
def int_wrap (x : Int) : Int := (x + 2147483648) % 4294967296 - 2147483648

/-- The loop `for (thread = 0; thread < thread_count; thread++)` of `main`
(lines 220-236), started with `n` iterations still to run at loop variable
`thread` and running offset `offset`; `main` starts it as
`set_threads_data s d thread_count info thread_count 0 0`.  `info thread` is
the value returned by `pthread_create` for that thread.  The products
`(s / thread_count + 1) * d`, `(s / thread_count) * d` and the sum
`offset += ...` of line 235 are `int` operations.  The result is the list
of `data[thread]` records filled in and handed to `pthread_create`, in rank
order, and `true` when the loop ran to its end (`false` when it left
through `return 1` after a failed `pthread_create`). -/
def set_threads_data (s d thread_count : Nat) (info : Nat → Int) :
    Nat → Nat → Int → List ThreadData × Bool
  | 0, _, _ => ([], true)
  | n + 1, thread, offset =>
    let td : ThreadData :=
      { thread_img := offset
        thread_s := if thread < s % thread_count then s / thread_count + 1 else s / thread_count
        thread_d := d
        rank := thread }
    if info thread ≠ 0 then ([td], false)
    else
      let rest := set_threads_data s d thread_count info n (thread + 1)
        (int_wrap (offset +
          (if thread < s % thread_count then int_wrap (((s / thread_count + 1 : Nat) : Int) * (d : Int))
           else int_wrap (((s / thread_count : Nat) : Int) * (d : Int)))))
      (td :: rest.1, rest.2)

/-- Number of rows that precede the block of rank `r` in the closed form
`r * (s / N) + min r (s % N)`; used only to reason about the loop. -/
def rows_before (s N r : Nat) : Nat := r * (s / N) + min r (s % N)

/-- The record the loop builds for rank `r` when no `int` overflows, in
closed form. -/
def thread_data_of (s d N r : Nat) : ThreadData :=
  { thread_img := ((d * rows_before s N r : Nat) : Int)
    thread_s := if r < s % N then s / N + 1 else s / N
    thread_d := d
    rank := r }

/-! ## Argument checks and orchestration (`main`, lines 175-256) -/

/-- The externally visible steps of `main`, in program order. -/
inductive Effect where
  | init_sync
  | print_usage
  | read_JPEG_to_matrix
  | print_t_error
  | set_style (style : Int)
  | malloc_thread_handles
  | calloc_mean
  | calloc_St
  | malloc_Et
  | pthread_create (td : ThreadData)
  | print_create_error (thread : Nat)
  | pthread_join (thread : Nat)
  | write_matrix_to_JPEG
  | free_and_destroy
deriving DecidableEq, Repr

/-- Whether an effect allocates one of the shared buffers `mean`, `St`, `Et`. -/
def Effect.allocates_shared : Effect → Bool
  | .calloc_mean => true
  | .calloc_St => true
  | .malloc_Et => true
  | _ => false

/-- Whether an effect is a call of `pthread_create`. -/
def Effect.creates_thread : Effect → Bool
  | .pthread_create _ => true
  | _ => false

/-- The function `main`.  `argc` is the argument count, `thread_count` the
value of `strtol(argv[1], NULL, 10)`, `s` and `d` the dimensions written by
`read_JPEG_to_matrix`, `t` the value of `atoi(argv[3])`, `style_arg` the
value of `atoi(argv[4])` (read only when `argc == 5`) and `info thread` the
value returned by `pthread_create` for that thread.  The result is the exit
status together with the steps performed, the workers being taken to
return.  It is `none` for `argc ≤ 1`: line 184 passes `argv[1]`, then a
null pointer, to `strtol` before the test of `argc` at line 188, and the
program has no defined result. -/
def main (argc : Int) (thread_count s d : Nat) (t style_arg : Int) (info : Nat → Int) :
    Option (Int × List Effect) :=
  if argc ≤ 1 then none
  else if argc ≠ 4 ∧ argc ≠ 5 then
    some (1, [.init_sync, .print_usage])
  else if t > (d : Int) then
    some (1, [.init_sync, .read_JPEG_to_matrix, .print_t_error])
  else
    let style : Int := if argc = 5 then style_arg else 0
    let spawned := set_threads_data s d thread_count info thread_count 0 0
    let before_join : List Effect :=
      [.init_sync, .read_JPEG_to_matrix, .set_style style, .malloc_thread_handles,
        .calloc_mean, .calloc_St, .malloc_Et] ++ spawned.1.map Effect.pthread_create
    if spawned.2 then
      some (0, before_join ++ (List.range thread_count).map Effect.pthread_join
            ++ [.write_matrix_to_JPEG, .free_and_destroy])
    else
      some (1, before_join ++ [.print_create_error (spawned.1.length - 1)])

/-! ## Barrier (`barrier`, lines 31-52) -/

/-- The part of `barrier` executed under `barrier_mutex` on arrival (lines
40-45): the new value of `barrier_counter` and whether
`pthread_cond_broadcast` is called. -/
def arrive (thread_count barrier_counter : Nat) : Nat × Bool :=
  if barrier_counter + 1 = thread_count then (0, true) else (barrier_counter + 1, false)

/-- Value of `barrier_counter` after `k` arrivals, starting from
`barrier_counter = 0` (line 31). -/
def counter_after (thread_count : Nat) : Nat → Nat
  | 0 => 0
  | k + 1 => (arrive thread_count (counter_after thread_count k)).1

/-- Whether arrival number `k` (counted from 1) calls `pthread_cond_broadcast`. -/
def broadcast_at (thread_count : Nat) : Nat → Bool
  | 0 => false
  | k + 1 => (arrive thread_count (counter_after thread_count k)).2

/-- Where a worker stands with respect to one call of `barrier`: it has not
called it yet, it is blocked inside `pthread_cond_wait` (line 48), it is
blocked there and a broadcast has since been issued, or the call has
returned to `PCA`. -/
inductive Pc where
  | before
  | waiting
  | signalled
  | returned
deriving DecidableEq, Repr

/-- Shared counter and the position of every worker. -/
structure BarrierState where
  barrier_counter : Nat
  pc : List Pc
deriving DecidableEq, Repr

/-- Atomic steps of the workers.  `call i`: worker `i` enters `barrier`,
takes the mutex and runs lines 40-48 up to the point where it either
unlocks and returns or blocks in `pthread_cond_wait` (which releases the
mutex).  `resume i`: a signalled worker gets the mutex back,
`pthread_cond_wait` returns 0, the `while` loop ends and the call returns.
`spurious_wakeup i`: `pthread_cond_wait` returns 0 in a worker that has not
been signalled (POSIX allows this); the test `!= 0` fails, the `while` loop
ends and the call returns. -/
inductive BarrierStep where
  | call (i : Nat)
  | resume (i : Nat)
  | spurious_wakeup (i : Nat)
deriving DecidableEq, Repr

/-- Effect of `pthread_cond_broadcast` on one worker. -/
def Pc.on_broadcast : Pc → Pc
  | .waiting => .signalled
  | p => p

/-- One step of the barrier; `none` when the step is not enabled. -/
def barrier_step (thread_count : Nat) (st : BarrierState) : BarrierStep → Option BarrierState
  | .call i =>
    if st.pc[i]? = some Pc.before then
      let a := arrive thread_count st.barrier_counter
      if a.2 then
        some { barrier_counter := a.1, pc := (st.pc.map Pc.on_broadcast).set i Pc.returned }
      else
        some { barrier_counter := a.1, pc := st.pc.set i Pc.waiting }
    else none
  | .resume i =>
    if st.pc[i]? = some Pc.signalled then some { st with pc := st.pc.set i Pc.returned }
    else none
  | .spurious_wakeup i =>
    if st.pc[i]? = some Pc.waiting then some { st with pc := st.pc.set i Pc.returned }
    else none

/-- State at the start of a phase: counter 0, no worker has called `barrier`. -/
def barrier_init (thread_count : Nat) : BarrierState :=
  { barrier_counter := 0, pc := List.replicate thread_count Pc.before }

/-- Run a schedule of steps; `none` when some step is not enabled. -/
def barrier_run (thread_count : Nat) : BarrierState → List BarrierStep → Option BarrierState
  | st, [] => some st
  | st, e :: es =>
    match barrier_step thread_count st e with
    | some st' => barrier_run thread_count st' es
    | none => none

/-- Whether a step is a spurious wakeup. -/
def BarrierStep.is_spurious : BarrierStep → Bool
  | .spurious_wakeup _ => true
  | _ => false

/-- Safety of a phase: if some call has returned, every worker has called
`barrier` in this phase. -/
def barrier_safe (st : BarrierState) : Prop :=
  Pc.returned ∈ st.pc → Pc.before ∉ st.pc

instance (st : BarrierState) : Decidable (barrier_safe st) := by
  unfold barrier_safe; infer_instance

/-- Invariant of a phase in which no spurious wakeup occurs: either no
broadcast has been issued yet, every worker is before its call or waiting,
and the counter is the number of workers that have called; or the broadcast
has been issued and every worker is signalled or has returned. -/
def barrier_inv (thread_count : Nat) (st : BarrierState) : Prop :=
  st.pc.length = thread_count
  ∧ ((st.barrier_counter + st.pc.count Pc.before = thread_count
        ∧ ∀ p, p ∈ st.pc → p = Pc.before ∨ p = Pc.waiting)
     ∨ (∀ p, p ∈ st.pc → p = Pc.signalled ∨ p = Pc.returned))

/-! ## Shared mean vector (`PCA`, lines 72-81) -/

/-- Modelled from the spec: `dataset_partial_mean` is defined in
`utils/la_utils`, which is not part of the sources at hand.  Following the
data model ("accumulates the column-wise sum of all partial partition sums;
final value (after division by `s`)") and the call
`dataset_partial_mean(s, local_s, d, local_img, mean_local)`, entry `j` of
the result is the sum of column `j` over the `local_s` rows of the
partition, divided by the total row count `s`. -/
def dataset_partial_mean (s local_s d : Nat) (local_img : Nat → ℚ) : Nat → ℚ :=
  fun j => if j < d then (Finset.range local_s).sum (fun i => local_img (i * d + j)) / (s : ℚ) else 0

/-- Modelled from the spec: `accumulate_matrix` is defined in
`utils/la_utils`, which is not part of the sources at hand.  It adds the
`rows × cols` matrix `src` element-wise into `dst`. -/
def accumulate_matrix (src : Nat → ℚ) (rows cols : Nat) (dst : Nat → ℚ) : Nat → ℚ :=
  fun k => if k < rows * cols then dst k + src k else dst k

/-- Lines 73-78 for one worker: the shared `mean` after the worker with
record `td` has added its partial mean under the mutex `m`. -/
def mean_accumulate (s : Nat) (img : Int → ℚ) (mean : Nat → ℚ) (td : ThreadData) : Nat → ℚ :=
  accumulate_matrix
    (dataset_partial_mean s td.thread_s td.thread_d
      (fun k : Nat => img (td.thread_img + (k : Int))))
    1 td.thread_d mean

/-- The shared `mean` at the barrier of line 81, when the workers took the
mutex in the order `order`; `mean` starts as `calloc(d, sizeof(double))`
(line 213), all zero. -/
def mean_at_barrier (s : Nat) (img : Int → ℚ) (order : List ThreadData) : Nat → ℚ :=
  order.foldl (mean_accumulate s img) (fun _ => 0)

/-- The image inside the memory `img`: element `k` of the buffer returned by
`read_JPEG_to_matrix`. -/
def dataset (img : Int → ℚ) : Nat → ℚ := fun k => img (k : Int)

/-- Column-wise mean of the `s × d` row-major dataset `img`. -/
def column_mean (s d : Nat) (img : Nat → ℚ) (j : Nat) : ℚ :=
  (Finset.range s).sum (fun i => img (i * d + j)) / (s : ℚ)

/-! ## Global extrema under style 1 (`PCA`, lines 138-151) -/

/-- Line 26 (the name is the one of the source; the value is `-1e5`). -/
def DBL_MIN : ℚ := -100000

/-- Line 27. -/
def DBL_MAX : ℚ := 100000

/-- Initial value of `global_min` (line 28). -/
def global_min_init : ℚ := 0

/-- Initial value of `global_max` (line 28), the literal `255.99` taken as
the rational `25599/100`. -/
def global_max_init : ℚ := 25599 / 100

/-- Modelled from the spec: `get_local_extremes` is defined in one of the
`utils` modules, which are not part of the sources at hand.  It computes the minimum and maximum of the `local_s × d` partition,
updating the two values passed by reference (`PCA` initialises them to
`DBL_MAX` and `DBL_MIN`). -/
def get_local_extremes (local_img : Nat → ℚ) (local_s d : Nat) (local_min local_max : ℚ) :
    ℚ × ℚ :=
  (List.range (local_s * d)).foldl
    (fun acc k =>
      (if local_img k < acc.1 then local_img k else acc.1,
       if local_img k > acc.2 then local_img k else acc.2))
    (local_min, local_max)

/-- Lines 144-147: widen the shared pair `(global_min, global_max)` with the
local pair `(local_min, local_max)`. -/
def widen (g l : ℚ × ℚ) : ℚ × ℚ :=
  (if g.1 > l.1 then l.1 else g.1, if g.2 < l.2 then l.2 else g.2)

/-- Lines 140-148 for one worker. -/
def extremes_accumulate (img : Int → ℚ) (g : ℚ × ℚ) (td : ThreadData) : ℚ × ℚ :=
  widen g (get_local_extremes (fun k : Nat => img (td.thread_img + (k : Int)))
    td.thread_s td.thread_d DBL_MAX DBL_MIN)

/-- The pair `(global_min, global_max)` at the barrier of line 149, that is
the pair passed to `rescale_image`, when the workers took the mutex in the
order `order`. -/
def extremes_at_barrier (img : Int → ℚ) (order : List ThreadData) : ℚ × ℚ :=
  order.foldl (extremes_accumulate img) (global_min_init, global_max_init)

/-- The value `m` is the minimum of the first `n` entries of `img`. -/
def is_true_min (img : Nat → ℚ) (n : Nat) (m : ℚ) : Prop :=
  (∃ k, k < n ∧ img k = m) ∧ ∀ k, k < n → m ≤ img k

/-- The value `m` is the maximum of the first `n` entries of `img`. -/
def is_true_max (img : Nat → ℚ) (n : Nat) (m : ℚ) : Prop :=
  (∃ k, k < n ∧ img k = m) ∧ ∀ k, k < n → img k ≤ m

instance (img : Nat → ℚ) (n : Nat) (m : ℚ) : Decidable (is_true_min img n m) := by
  unfold is_true_min; infer_instance

instance (img : Nat → ℚ) (n : Nat) (m : ℚ) : Decidable (is_true_max img n m) := by
  unfold is_true_max; infer_instance

/-! ## Rank-`t` truncation (`PCA`, lines 91-92) -/

/-- The BLAS routine `dscal` (reference semantics): for `0 ≤ i < n` the
entry `x[i * incx]` is replaced by `alpha * x[i * incx]`; nothing is done
when `n ≤ 0` or `incx = 0`. -/
def cblas_dscal (n : Int) (alpha : ℚ) (x : Nat → ℚ) (incx : Nat) : Nat → ℚ :=
  fun k => if ∃ i, i < n.toNat ∧ incx ≠ 0 ∧ k = i * incx then alpha * x k else x k

/-- Line 92, `cblas_dscal(d - t, 0.0, D_local + t, 1)`, as a map on the
buffer `D_local`: entries below `t` are not part of the view `D_local + t`;
entry `t + i` is entry `i` of the scaled view. -/
def truncate_singular_values (d t : Nat) (D_local : Nat → ℚ) : Nat → ℚ :=
  fun k =>
    if k < t then D_local k
    else cblas_dscal ((d : Int) - (t : Int)) 0 (fun i => D_local (t + i)) 1 (k - t)

/-! ## Synchronisation points of a worker (`PCA`, lines 54-173) -/

/-- The steps of `PCA` that matter for synchronisation; `barrier line` is
the call of `barrier()` at that source line, `compute name` any other call
(with the partition size it works on). -/
inductive Action where
  | barrier (line : Nat)
  | lock
  | unlock
  | compute (name : String) (local_s : Nat)
  | print_time
deriving DecidableEq, Repr

/-- The sequence of steps of one `PCA` worker, as a function of its record
and of the global `style`. -/
def PCA (td : ThreadData) (style : Int) : List Action :=
  [.barrier 58,
    .compute "dataset_partial_mean" td.thread_s,
    .lock, .compute "accumulate_matrix mean" td.thread_s, .unlock,
    .barrier 81,
    .compute "center_dataset" td.thread_s,
    .compute "SVD" td.thread_s,
    .compute "cblas_dscal" td.thread_s,
    .compute "SVD_reconstruct_matrix" td.thread_s,
    .compute "multiply_matrices St_local" td.thread_s,
    .lock, .compute "accumulate_matrix St" td.thread_s, .unlock,
    .barrier 112]
  ++ (if td.rank = 0 then
        [.compute "eigen_decomposition" td.thread_s,
          .compute "reverse_matrix_columns" td.thread_s]
      else [])
  ++ [.barrier 124,
    .compute "multiply_matrices Pt_localEt" td.thread_s,
    .compute "multiply_matrices local_img" td.thread_s,
    .compute "decenter_dataset" td.thread_s]
  ++ (if style = 0 then [.compute "set_local_extremes" td.thread_s]
      else if style = 1 then
        [.compute "get_local_extremes" td.thread_s,
          .lock, .compute "widen global extrema" td.thread_s, .unlock,
          .barrier 149,
          .compute "rescale_image" td.thread_s]
      else [])
  ++ [.lock, .compute "total_time" td.thread_s, .unlock,
    .barrier 161]
  ++ (if td.rank = 0 then [.print_time] else [])

/-- Whether a step is a call of `barrier()`. -/
def Action.is_barrier : Action → Bool
  | .barrier _ => true
  | _ => false

/-- The calls of `barrier()` a worker makes, in order. -/
def barrier_calls (td : ThreadData) (style : Int) : List Action :=
  (PCA td style).filter Action.is_barrier

/-! ### Lemmas on the partitioner -/

theorem rows_before_zero (s N : Nat) : rows_before s N 0 = 0 := by
  simp [rows_before]

theorem rows_before_succ (s N r : Nat) :
    rows_before s N (r + 1)
      = rows_before s N r + (if r < s % N then s / N + 1 else s / N) := by
  unfold rows_before
  split_ifs with h
  · rw [Nat.min_eq_left (by omega), Nat.min_eq_left (by omega)]; ring
  · rw [Nat.min_eq_right (by omega), Nat.min_eq_right (by omega)]; ring

theorem rows_before_total (s N : Nat) (hN : 1 ≤ N) : rows_before s N N = s := by
  unfold rows_before
  have h1 : s % N < N := Nat.mod_lt _ (by omega)
  rw [Nat.min_eq_right (by omega)]
  have := Nat.div_add_mod s N
  nlinarith [Nat.mul_comm N (s / N)]

theorem rows_before_mono (s N : Nat) {a b : Nat} (h : a ≤ b) :
    rows_before s N a ≤ rows_before s N b := by
  induction h with
  | refl => exact le_rfl
  | step _ ih => rw [rows_before_succ]; omega

/-- An `int` result inside `[0, 2^31 - 1]` is not changed by the wrap. -/
theorem int_wrap_of_le (x : Int) (h0 : 0 ≤ x) (h1 : x ≤ 2147483647) : int_wrap x = x := by
  unfold int_wrap
  omega

/-- Sizes, column counts and ranks of the records built by the loop when
every `pthread_create` succeeds, whatever the running offset. -/
theorem set_threads_data_sizes (s d N : Nat) (info : Nat → Int) :
    ∀ (n thread : Nat) (offset : Int),
      (∀ r, thread ≤ r → r < thread + n → info r = 0) →
      (set_threads_data s d N info n thread offset).1.map
          (fun td => (td.thread_s, td.thread_d, td.rank))
        = (List.range' thread n).map
          (fun r => ((if r < s % N then s / N + 1 else s / N), d, r))
      ∧ (set_threads_data s d N info n thread offset).2 = true := by
  intro n
  induction n with
  | zero => intro thread offset _; simp [set_threads_data]
  | succ n ih =>
    intro thread offset hinfo
    have h0 : info thread = 0 := hinfo thread le_rfl (by omega)
    obtain ⟨h1, h2⟩ := ih (thread + 1)
      (int_wrap (offset +
        (if thread < s % N then int_wrap (((s / N + 1 : Nat) : Int) * (d : Int))
         else int_wrap (((s / N : Nat) : Int) * (d : Int)))))
      (fun r h1 h2 => hinfo r (by omega) (by omega))
    simp only [set_threads_data, h0, ne_eq, not_true_eq_false, if_false,
      List.range'_succ, List.map_cons, h1, h2, and_self]

/-- Closed form of the loop when every `pthread_create` succeeds and the
element count up to the last block handled fits an `int`. -/
theorem set_threads_data_eq (s d N : Nat) (info : Nat → Int) :
    ∀ (n thread : Nat) (offset : Int),
      (∀ r, thread ≤ r → r < thread + n → info r = 0) →
      d * rows_before s N (thread + n) ≤ 2147483647 →
      offset = ((d * rows_before s N thread : Nat) : Int) →
      set_threads_data s d N info n thread offset
        = ((List.range' thread n).map (thread_data_of s d N), true) := by
  intro n
  induction n with
  | zero => intro thread offset _ _ _; simp [set_threads_data]
  | succ n ih =>
    intro thread offset hinfo hb hoff
    have h0 : info thread = 0 := hinfo thread le_rfl (by omega)
    have hstep : d * rows_before s N (thread + 1) ≤ 2147483647 :=
      (Nat.mul_le_mul_left d (rows_before_mono s N (by omega))).trans hb
    have hsplit : d * rows_before s N (thread + 1)
        = d * rows_before s N thread + (if thread < s % N then s / N + 1 else s / N) * d := by
      rw [rows_before_succ]; ring
    have hprod : (if thread < s % N then int_wrap (((s / N + 1 : Nat) : Int) * (d : Int))
          else int_wrap (((s / N : Nat) : Int) * (d : Int)))
        = (((if thread < s % N then s / N + 1 else s / N) * d : Nat) : Int) := by
      split_ifs at hsplit ⊢
      · rw [int_wrap_of_le _ (by positivity) (by exact_mod_cast (by omega :
          (s / N + 1) * d ≤ 2147483647))]
        push_cast; ring
      · rw [int_wrap_of_le _ (by positivity) (by exact_mod_cast (by omega :
          (s / N) * d ≤ 2147483647))]
        push_cast; ring
    have hnext : int_wrap (offset +
          (if thread < s % N then int_wrap (((s / N + 1 : Nat) : Int) * (d : Int))
           else int_wrap (((s / N : Nat) : Int) * (d : Int))))
        = ((d * rows_before s N (thread + 1) : Nat) : Int) := by
      rw [hprod, hoff, ← Nat.cast_add, ← hsplit]
      exact int_wrap_of_le _ (by positivity) (by exact_mod_cast hstep)
    have hb2 : d * rows_before s N (thread + 1 + n) ≤ 2147483647 := by
      have e : thread + 1 + n = thread + (n + 1) := by omega
      rw [e]; exact hb
    have := ih (thread + 1) _ (fun r h1 h2 => hinfo r (by omega) (by omega)) hb2 hnext
    simp only [set_threads_data, h0, ne_eq, not_true_eq_false, if_false, this,
      List.range'_succ, List.map_cons]
    simp [thread_data_of, hoff]

theorem sum_thread_s_range' (s N : Nat) : ∀ (n thread : Nat),
    ((List.range' thread n).map (fun r => if r < s % N then s / N + 1 else s / N)).sum
      + rows_before s N thread = rows_before s N (thread + n) := by
  intro n
  induction n with
  | zero => intro thread; simp
  | succ n ih =>
    intro thread
    have := ih (thread + 1)
    rw [rows_before_succ] at this
    simp only [List.range'_succ, List.map_cons, List.sum_cons]
    have e : thread + 1 + n = thread + (n + 1) := by omega
    rw [e] at this
    omega

end ParallelPCA

namespace ParallelPCA

/-- When every `pthread_create` succeeds and `s * d` fits an `int`, the loop
of `main` builds exactly the records `thread_data_of s d N r` for the ranks
`r = 0 .. N-1`. -/
theorem set_threads_data_main (s d N : Nat) (info : Nat → Int) (hN : 1 ≤ N)
    (hb : s * d ≤ 2147483647) (hinfo : ∀ r, r < N → info r = 0) :
    set_threads_data s d N info N 0 0
      = ((List.range N).map (thread_data_of s d N), true) := by
  rw [set_threads_data_eq s d N info N 0 0 (fun r _ h => hinfo r (by omega))
    (by rw [Nat.zero_add, rows_before_total s N hN, Nat.mul_comm]; exact hb)
    (by simp [rows_before_zero]), List.range_eq_range']

/-- Block sizes of the records built by the loop, in rank order. -/
theorem set_threads_data_thread_s (s d N : Nat) (info : Nat → Int)
    (hinfo : ∀ r, r < N → info r = 0) :
    (set_threads_data s d N info N 0 0).1.map ThreadData.thread_s
      = (List.range N).map (fun r => if r < s % N then s / N + 1 else s / N) := by
  have h := (set_threads_data_sizes s d N info N 0 0 (fun r _ h => hinfo r (by omega))).1
  have h2 := congrArg (List.map (fun x : Nat × Nat × Nat => x.1)) h
  simp only [List.map_map] at h2
  rw [List.range_eq_range']
  exact h2

theorem sum_thread_s_take (s N r : Nat) (hr : r ≤ N) :
    (((List.range N).map (fun r => if r < s % N then s / N + 1 else s / N)).take r).sum
      = rows_before s N r := by
  have h := sum_thread_s_range' s N r 0
  rw [rows_before_zero] at h
  rw [← List.map_take, List.take_range, Nat.min_eq_left hr, List.range_eq_range']
  simpa using h

/-- Every row index below `s` lies in the block of some rank. -/
theorem exists_block (s N : Nat) : ∀ (r i : Nat), i < rows_before s N r →
    ∃ q, q < r ∧ rows_before s N q ≤ i ∧ i < rows_before s N (q + 1) := by
  intro r
  induction r with
  | zero => intro i hi; simp [rows_before_zero] at hi
  | succ r ih =>
    intro i hi
    by_cases h : i < rows_before s N r
    · obtain ⟨q, hq, h1, h2⟩ := ih i h
      exact ⟨q, by omega, h1, h2⟩
    · exact ⟨r, by omega, by omega, hi⟩

/-- The block of every rank ends inside the `s × d` buffer: the number of
elements up to the end of the block is at most `s * d`. -/
theorem block_end_le (s d N : Nat) (hN : 1 ≤ N) (r : Nat) (hr : r < N) :
    d * rows_before s N r + (if r < s % N then s / N + 1 else s / N) * d ≤ s * d := by
  have h1 : rows_before s N (r + 1) ≤ s := by
    calc rows_before s N (r + 1) ≤ rows_before s N N := rows_before_mono s N hr
      _ = s := rows_before_total s N hN
  rw [rows_before_succ] at h1
  have h2 := Nat.mul_le_mul_right d h1
  rw [Nat.add_mul] at h2
  rw [Nat.mul_comm d]
  exact h2

/-- The loop on the scenario of the specification (`s = 4`, `d = 3`,
`N = 2`: rows `{0,1}` and `{2,3}`) and with more workers than rows
(`s = 2`, `N = 4`: two blocks of one row, two empty blocks). -/
theorem set_threads_data_scenario :
    set_threads_data 4 3 2 (fun _ => 0) 2 0 0
        = ([{ thread_img := 0, thread_s := 2, thread_d := 3, rank := 0 },
            { thread_img := 6, thread_s := 2, thread_d := 3, rank := 1 }], true)
    ∧ set_threads_data 2 3 4 (fun _ => 0) 4 0 0
        = ([{ thread_img := 0, thread_s := 1, thread_d := 3, rank := 0 },
            { thread_img := 3, thread_s := 1, thread_d := 3, rank := 1 },
            { thread_img := 6, thread_s := 0, thread_d := 3, rank := 2 },
            { thread_img := 6, thread_s := 0, thread_d := 3, rank := 3 }], true) := by
  constructor <;> decide

/-- The loop on a `65000 × 46000` image with four workers: the blocks have
16250 rows each, and the `int` offset of rank 3, `3 * 747500000`, exceeds
`2^31 - 1` and wraps to `-2052467296`. -/
theorem set_threads_data_overflow :
    set_threads_data 65000 46000 4 (fun _ => 0) 4 0 0
      = ([{ thread_img := 0, thread_s := 16250, thread_d := 46000, rank := 0 },
          { thread_img := 747500000, thread_s := 16250, thread_d := 46000, rank := 1 },
          { thread_img := 1495000000, thread_s := 16250, thread_d := 46000, rank := 2 },
          { thread_img := -2052467296, thread_s := 16250, thread_d := 46000, rank := 3 }],
         true) := by
  decide

/-- C1: for every row count `s` and every worker count `N ≥ 1` (also
`N > s`), when all `N` workers are created, the loop of `main` fills in one
record per rank `0 .. N-1`, the record of rank `r` has
`thread_s = s/N + 1` if `r < s mod N` and `s/N` otherwise, and these block
sizes sum to exactly `s`. -/
theorem C1_block_sizes_sum (s d N : Nat) (info : Nat → Int)
    (hN : 1 ≤ N) (hinfo : ∀ r, r < N → info r = 0) :
    (set_threads_data s d N info N 0 0).1.length = N
    ∧ (∀ r, r < N → ∃ td, (set_threads_data s d N info N 0 0).1[r]? = some td
        ∧ td.rank = r
        ∧ td.thread_s = (if r < s % N then s / N + 1 else s / N))
    ∧ ((set_threads_data s d N info N 0 0).1.map ThreadData.thread_s).sum = s := by
  have hsz := (set_threads_data_sizes s d N info N 0 0 (fun r _ h => hinfo r (by omega))).1
  have hlen : (set_threads_data s d N info N 0 0).1.length = N := by
    have := congrArg List.length hsz
    simpa using this
  refine ⟨hlen, ?_, ?_⟩
  · intro r hr
    have hget := congrArg (fun l => l[r]?) hsz
    simp only [List.getElem?_map, ← List.range_eq_range', List.getElem?_range hr,
      Option.map_some'] at hget
    cases hd : (set_threads_data s d N info N 0 0).1[r]? with
    | none => rw [hd] at hget; simp at hget
    | some td =>
      rw [hd] at hget
      simp only [Option.map_some', Option.some.injEq, Prod.mk.injEq] at hget
      exact ⟨td, rfl, hget.2.2, hget.1⟩
  · rw [set_threads_data_thread_s s d N info hinfo]
    have h := sum_thread_s_take s N N le_rfl
    rw [rows_before_total s N hN, List.take_of_length_le (by simp)] at h
    exact h

/-- Witness for C1: seven rows on three workers, blocks of 3, 2 and 2 rows. -/
theorem C1_block_sizes_sum_witness :
    (set_threads_data 7 4 3 (fun _ => 0) 3 0 0).1.length = 3
    ∧ (∀ r, r < 3 → ∃ td, (set_threads_data 7 4 3 (fun _ => 0) 3 0 0).1[r]? = some td
        ∧ td.rank = r
        ∧ td.thread_s = (if r < 7 % 3 then 7 / 3 + 1 else 7 / 3))
    ∧ ((set_threads_data 7 4 3 (fun _ => 0) 3 0 0).1.map ThreadData.thread_s).sum = 7 :=
  C1_block_sizes_sum 7 4 3 (fun _ => 0) (by decide) (fun _ _ => rfl)

/-- C2 (as amended): for every `s`, `d` and `N ≥ 1` with `s * d ≤ 2^31 - 1`,
when all `N` workers are created, the element offset given to rank `r` is
`d` times the sum of the block sizes of the ranks below `r` (0 for rank 0);
with `start r` that sum of block sizes, the row ranges
`[start r, start r + thread_s r)` are in rank order and pairwise disjoint
(the range of a lower rank ends at or before the start of a higher rank),
lie inside `[0, s)`, and every row index below `s` belongs to the range of
exactly one rank. -/
theorem C2_offsets_partition_rows (s d N : Nat) (info : Nat → Int)
    (hN : 1 ≤ N) (hb : s * d ≤ 2147483647) (hinfo : ∀ r, r < N → info r = 0) :
    ∃ start size : Nat → Nat,
      (∀ r, r < N → ∃ td, (set_threads_data s d N info N 0 0).1[r]? = some td
        ∧ size r = td.thread_s
        ∧ start r = (((set_threads_data s d N info N 0 0).1.take r).map
            ThreadData.thread_s).sum
        ∧ td.thread_img = ((d * start r : Nat) : Int))
      ∧ start 0 = 0
      ∧ (∀ q r, q < r → r < N → start q + size q ≤ start r)
      ∧ (∀ r, r < N → start r + size r ≤ s)
      ∧ (∀ i, i < s → ∃! r, r < N ∧ start r ≤ i ∧ i < start r + size r) := by
  have hts := set_threads_data_thread_s s d N info hinfo
  rw [set_threads_data_main s d N info hN hb hinfo] at hts ⊢
  have hsucc : ∀ r, rows_before s N r + (if r < s % N then s / N + 1 else s / N)
      = rows_before s N (r + 1) := fun r => (rows_before_succ s N r).symm
  refine ⟨rows_before s N, fun r => if r < s % N then s / N + 1 else s / N, ?_, ?_, ?_, ?_, ?_⟩
  · intro r hr
    refine ⟨thread_data_of s d N r, ?_, rfl, ?_, rfl⟩
    · simp [List.getElem?_map, List.getElem?_range hr]
    · rw [List.map_take, hts]
      exact (sum_thread_s_take s N r hr.le).symm
  · exact rows_before_zero s N
  · intro q r hqr _
    show rows_before s N q + (if q < s % N then s / N + 1 else s / N) ≤ _
    rw [hsucc]
    exact rows_before_mono s N hqr
  · intro r hr
    show rows_before s N r + (if r < s % N then s / N + 1 else s / N) ≤ _
    rw [hsucc]
    calc rows_before s N (r + 1) ≤ rows_before s N N := rows_before_mono s N hr
      _ = s := rows_before_total s N hN
  · intro i hi
    obtain ⟨q, hq, h1, h2⟩ := exists_block s N N i (by rw [rows_before_total s N hN]; exact hi)
    refine ⟨q, ⟨hq, h1, ?_⟩, ?_⟩
    · show i < rows_before s N q + (if q < s % N then s / N + 1 else s / N)
      rw [hsucc]; exact h2
    · rintro r ⟨_, hr1, hr2⟩
      have hr2' : i < rows_before s N (r + 1) := by rw [← hsucc]; exact hr2
      rcases Nat.lt_trichotomy r q with h | h | h
      · have := rows_before_mono s N (show r + 1 ≤ q from h)
        omega
      · exact h
      · have := rows_before_mono s N (show q + 1 ≤ r from h)
        omega

/-- Witness for C2 as amended: seven rows of four columns on three workers. -/
theorem C2_offsets_partition_rows_witness :
    ∃ start size : Nat → Nat,
      (∀ r, r < 3 → ∃ td, (set_threads_data 7 4 3 (fun _ => 0) 3 0 0).1[r]? = some td
        ∧ size r = td.thread_s
        ∧ start r = (((set_threads_data 7 4 3 (fun _ => 0) 3 0 0).1.take r).map
            ThreadData.thread_s).sum
        ∧ td.thread_img = ((4 * start r : Nat) : Int))
      ∧ start 0 = 0
      ∧ (∀ q r, q < r → r < 3 → start q + size q ≤ start r)
      ∧ (∀ r, r < 3 → start r + size r ≤ 7)
      ∧ (∀ i, i < 7 → ∃! r, r < 3 ∧ start r ≤ i ∧ i < start r + size r) :=
  C2_offsets_partition_rows 7 4 3 (fun _ => 0) (by decide) (by decide) (fun _ _ => rfl)

/-- C2 (counterexample to the claim as stated): on a `65000 × 46000` image
with four workers the blocks of ranks 0, 1 and 2 have 16250 rows each, so
`d` times the sum of the block sizes below rank 3 is
`46000 * 48750 = 2242500000`; the `int` offset given to rank 3 is
`-2052467296`. -/
theorem C2_offset_wraps_around :
    (set_threads_data 65000 46000 4 (fun _ => 0) 4 0 0).1[3]?
        = some { thread_img := -2052467296, thread_s := 16250, thread_d := 46000, rank := 3 }
    ∧ ((46000 * (((set_threads_data 65000 46000 4 (fun _ => 0) 4 0 0).1.take 3).map
          ThreadData.thread_s).sum : Nat) : Int) = 2242500000
    ∧ ¬ (∀ r, r < 4 → ∃ td, (set_threads_data 65000 46000 4 (fun _ => 0) 4 0 0).1[r]? = some td
          ∧ td.thread_img
            = ((46000 * (((set_threads_data 65000 46000 4 (fun _ => 0) 4 0 0).1.take r).map
                ThreadData.thread_s).sum : Nat) : Int)) := by
  rw [set_threads_data_overflow]
  refine ⟨by decide, by decide, ?_⟩
  intro h
  obtain ⟨td, h1, h2⟩ := h 3 (by decide)
  simp only [List.getElem?_cons_succ, List.getElem?_cons_zero, Option.some.injEq] at h1
  subst h1
  revert h2
  decide

/-! ### Argument checks of `main` -/

/-- C3: for every invocation with a valid argument count (4 or 5) in which
`t` is greater than the column count `d` of the decoded image, `main`
returns exit status 1 after decoding the image and printing the error; none
of its steps allocates a shared buffer and none creates a worker thread. -/
theorem C3_t_gt_d_rejected (argc : Int) (thread_count s d : Nat) (t style_arg : Int)
    (info : Nat → Int) (hargc : argc = 4 ∨ argc = 5) (ht : t > (d : Int)) :
    main argc thread_count s d t style_arg info
        = some (1, [Effect.init_sync, Effect.read_JPEG_to_matrix, Effect.print_t_error])
    ∧ ∀ r, main argc thread_count s d t style_arg info = some r →
        r.1 ≠ 0
        ∧ ∀ e, e ∈ r.2 → e.allocates_shared = false ∧ e.creates_thread = false := by
  have hmain : main argc thread_count s d t style_arg info
      = some (1, [Effect.init_sync, Effect.read_JPEG_to_matrix, Effect.print_t_error]) := by
    unfold main
    have h0 : ¬ argc ≤ 1 := by omega
    have h1 : ¬ (argc ≠ 4 ∧ argc ≠ 5) := by omega
    rw [if_neg h0, if_neg h1, if_pos ht]
  rw [hmain]
  refine ⟨rfl, ?_⟩
  intro r hr
  simp only [Option.some.injEq] at hr
  subst hr
  refine ⟨by decide, ?_⟩
  intro e he
  simp only [List.mem_cons, List.mem_singleton, List.not_mem_nil, or_false] at he
  rcases he with h | h | h <;> subst h <;> exact ⟨rfl, rfl⟩

/-- Witness for C3: three principal components asked of a two-column image. -/
theorem C3_t_gt_d_rejected_witness :
    main 4 2 5 2 3 0 (fun _ => 0)
        = some (1, [Effect.init_sync, Effect.read_JPEG_to_matrix, Effect.print_t_error])
    ∧ ∀ r, main 4 2 5 2 3 0 (fun _ => 0) = some r →
        r.1 ≠ 0
        ∧ ∀ e, e ∈ r.2 → e.allocates_shared = false ∧ e.creates_thread = false :=
  C3_t_gt_d_rejected 4 2 5 2 3 0 (fun _ => 0) (Or.inl rfl) (by decide)

/-- C8 (the code departs from the claim): with `t = 0` (for instance a
non-numeric third argument), on a one-row, one-column image and one worker,
`main` passes the check `t > d`, allocates the shared buffers, creates
worker 0 and returns exit status 0.  With `t = -1` the check is passed as
well and worker 0 is created; that worker then scales entries in front of
`D_local`, so nothing is stated about the exit status. -/
theorem C8_t_below_one_not_rejected :
    main 4 1 1 1 0 0 (fun _ => 0)
        = some (0, [Effect.init_sync, Effect.read_JPEG_to_matrix, Effect.set_style 0,
            Effect.malloc_thread_handles, Effect.calloc_mean, Effect.calloc_St,
            Effect.malloc_Et,
            Effect.pthread_create { thread_img := 0, thread_s := 1, thread_d := 1, rank := 0 },
            Effect.pthread_join 0, Effect.write_matrix_to_JPEG, Effect.free_and_destroy])
    ∧ ∃ r, main 4 1 1 1 (-1) 0 (fun _ => 0) = some r
        ∧ Effect.pthread_create { thread_img := 0, thread_s := 1, thread_d := 1, rank := 0 }
            ∈ r.2 := by
  refine ⟨by decide, _, rfl, by decide⟩

/-! ### Barrier -/

theorem succ_mod_eq (N k : Nat) (hN : 1 ≤ N) :
    (k + 1) % N = if k % N + 1 = N then 0 else k % N + 1 := by
  have hlt : k % N < N := Nat.mod_lt _ (by omega)
  have hk := Nat.div_add_mod k N
  split_ifs with h
  · have e : k + 1 = N * (k / N + 1) := by rw [Nat.mul_add, Nat.mul_one]; omega
    rw [e, Nat.mul_mod_right]
  · have e : k + 1 = N * (k / N) + (k % N + 1) := by omega
    rw [e, Nat.mul_add_mod, Nat.mod_eq_of_lt (by omega)]

theorem counter_after_eq_mod (N : Nat) (hN : 1 ≤ N) : ∀ k, counter_after N k = k % N := by
  intro k
  induction k with
  | zero => simp [counter_after]
  | succ k ih =>
    rw [counter_after, ih, succ_mod_eq N k hN]
    unfold arrive
    split_ifs <;> rfl

/-- C7: for every `N ≥ 1`, starting from `barrier_counter = 0`, after `k`
arrivals the counter equals `k mod N`, hence stays in `[0, N-1]`; arrival
number `k + 1` calls `pthread_cond_broadcast` exactly when `N` divides
`k + 1` (arrivals `N, 2N, 3N, ...`); and the counter is 0 again after each
full round of `N` arrivals. -/
theorem C7_counter_is_arrivals_mod (N k : Nat) (hN : 1 ≤ N) :
    counter_after N k = k % N
    ∧ counter_after N k < N
    ∧ (broadcast_at N (k + 1) = true ↔ N ∣ k + 1)
    ∧ counter_after N (k * N) = 0 := by
  refine ⟨counter_after_eq_mod N hN k, ?_, ?_, ?_⟩
  · rw [counter_after_eq_mod N hN]; exact Nat.mod_lt _ (by omega)
  · rw [Nat.dvd_iff_mod_eq_zero, succ_mod_eq N k hN]
    simp only [broadcast_at, arrive, counter_after_eq_mod N hN]
    split_ifs with h
    · simp
    · simp
  · rw [counter_after_eq_mod N hN, Nat.mul_mod_left]

/-- Witness for C7: three workers, seven arrivals. -/
theorem C7_counter_is_arrivals_mod_witness :
    counter_after 3 7 = 7 % 3
    ∧ counter_after 3 7 < 3
    ∧ (broadcast_at 3 (7 + 1) = true ↔ 3 ∣ 7 + 1)
    ∧ counter_after 3 (7 * 3) = 0 :=
  C7_counter_is_arrivals_mod 3 7 (by decide)

/-- C6 (the code departs from the claim): with two workers, worker 0 calls
`barrier` and blocks in `pthread_cond_wait`; a spurious wakeup makes
`pthread_cond_wait` return 0, the loop `while (... != 0)` ends and the call
of worker 0 returns although worker 1 has not called `barrier`: the counter
is still 1 and no broadcast was issued. -/
theorem C6_spurious_wakeup_leaves_barrier :
    barrier_run 2 (barrier_init 2) [BarrierStep.call 0, BarrierStep.spurious_wakeup 0]
        = some { barrier_counter := 1, pc := [Pc.returned, Pc.before] }
    ∧ ¬ barrier_safe { barrier_counter := 1, pc := [Pc.returned, Pc.before] } := by
  constructor <;> decide

/-! ### Rank-`t` truncation -/

/-- C9: for every `d`, every `t ≤ d` and every buffer `D`, after line 92 the
entries below `t` are unchanged, the entries `t ≤ i < d` are 0, nothing at
or beyond index `d` is written, and for `t = d` the buffer is unchanged. -/
theorem C9_truncation_zeroes_tail (d t : Nat) (D : Nat → ℚ) (ht : t ≤ d) :
    (∀ i, i < t → truncate_singular_values d t D i = D i)
    ∧ (∀ i, t ≤ i → i < d → truncate_singular_values d t D i = 0)
    ∧ (∀ i, d ≤ i → truncate_singular_values d t D i = D i)
    ∧ (t = d → truncate_singular_values d t D = D) := by
  have hlow : ∀ i, i < t → truncate_singular_values d t D i = D i := by
    intro i hi
    simp [truncate_singular_values, hi]
  have hhigh : ∀ i, d ≤ i → truncate_singular_values d t D i = D i := by
    intro i hi
    have h1 : ¬ i < t := by omega
    have h2 : ¬ ∃ j, j < ((d : Int) - (t : Int)).toNat ∧ (1 : Nat) ≠ 0 ∧ i - t = j * 1 := by
      rintro ⟨j, hj, _, e⟩
      omega
    simp only [truncate_singular_values, cblas_dscal, if_neg h1, if_neg h2]
    congr 1; omega
  refine ⟨hlow, ?_, hhigh, ?_⟩
  · intro i h1 h2
    have h3 : ¬ i < t := by omega
    have h4 : ∃ j, j < ((d : Int) - (t : Int)).toNat ∧ (1 : Nat) ≠ 0 ∧ i - t = j * 1 :=
      ⟨i - t, by omega, by decide, by omega⟩
    simp only [truncate_singular_values, cblas_dscal, if_neg h3, if_pos h4, zero_mul]
  · intro e
    funext i
    by_cases h : i < t
    · exact hlow i h
    · exact hhigh i (by omega)

/-- Witness for C9: five singular values, rank 2. -/
theorem C9_truncation_zeroes_tail_witness :
    (∀ i, i < 2 → truncate_singular_values 5 2 (fun k : Nat => (k : ℚ) + 1) i = (fun k : Nat => (k : ℚ) + 1) i)
    ∧ (∀ i, 2 ≤ i → i < 5 → truncate_singular_values 5 2 (fun k : Nat => (k : ℚ) + 1) i = 0)
    ∧ (∀ i, 5 ≤ i → truncate_singular_values 5 2 (fun k : Nat => (k : ℚ) + 1) i
        = (fun k : Nat => (k : ℚ) + 1) i)
    ∧ (2 = 5 → truncate_singular_values 5 2 (fun k : Nat => (k : ℚ) + 1) = (fun k : Nat => (k : ℚ) + 1)) :=
  C9_truncation_zeroes_tail 5 2 (fun k : Nat => (k : ℚ) + 1) (by decide)

/-! ### Synchronisation points of a worker -/

/-- C10: for every worker record (rank, partition size) and every value of
`style`, the calls of `barrier()` made by `PCA` are those of lines 58, 81,
112, 124, then line 149 when `style = 1`, then line 161: 6 calls when
`style = 1` and 5 otherwise, and the same sequence for any two workers. -/
theorem C10_barrier_calls_depend_on_style_only (td : ThreadData) (style : Int) :
    barrier_calls td style
        = [Action.barrier 58, Action.barrier 81, Action.barrier 112, Action.barrier 124]
          ++ (if style = 1 then [Action.barrier 149] else []) ++ [Action.barrier 161]
    ∧ (barrier_calls td style).length = (if style = 1 then 6 else 5)
    ∧ ∀ td2 : ThreadData, barrier_calls td2 style = barrier_calls td style := by
  have key : ∀ x : ThreadData, barrier_calls x style
      = [Action.barrier 58, Action.barrier 81, Action.barrier 112, Action.barrier 124]
          ++ (if style = 1 then [Action.barrier 149] else []) ++ [Action.barrier 161] := by
    intro x
    unfold barrier_calls PCA
    by_cases hr : x.rank = 0 <;> by_cases h0 : style = 0 <;> by_cases h1 : style = 1 <;>
      first
      | omega
      | simp [hr, h0, h1, List.filter, Action.is_barrier]
  refine ⟨key td, ?_, fun td2 => by rw [key td2, key td]⟩
  rw [key td]
  split_ifs <;> rfl

/-! ### Shared mean vector -/

/-- Contribution of the worker with record `td` to entry `j` of `mean`. -/
theorem mean_accumulate_apply (s : Nat) (img : Int → ℚ) (mean : Nat → ℚ) (td : ThreadData)
    (j : Nat) (hj : j < td.thread_d) :
    mean_accumulate s img mean td j
      = mean j + (Finset.range td.thread_s).sum
          (fun i => img (td.thread_img + ((i * td.thread_d + j : Nat) : Int))) / (s : ℚ) := by
  simp [mean_accumulate, accumulate_matrix, dataset_partial_mean, hj]

theorem foldl_mean_accumulate (s d : Nat) (img : Int → ℚ) (j : Nat) (hj : j < d) :
    ∀ (order : List ThreadData) (mean : Nat → ℚ),
      (∀ td, td ∈ order → td.thread_d = d) →
      order.foldl (mean_accumulate s img) mean j
        = mean j + (order.map (fun td : ThreadData =>
            (Finset.range td.thread_s).sum
              (fun i => img (td.thread_img + ((i * d + j : Nat) : Int))) / (s : ℚ))).sum := by
  intro order
  induction order with
  | nil => intro mean _; simp
  | cons td rest ih =>
    intro mean hd
    have htd : td.thread_d = d := hd td (List.mem_cons_self _ _)
    rw [List.foldl_cons, ih _ (fun x hx => hd x (List.mem_cons_of_mem _ hx)),
      mean_accumulate_apply s img mean td j (by rw [htd]; exact hj), htd]
    simp only [List.map_cons, List.sum_cons]
    ring

/-- The contributions of the ranks `0 .. n-1` add up to the column sum over
the rows that precede rank `n`, divided by `s`. -/
theorem sum_contributions (s d N : Nat) (img : Int → ℚ) (j : Nat) : ∀ n : Nat,
    (((List.range n).map (thread_data_of s d N)).map (fun td : ThreadData =>
        (Finset.range td.thread_s).sum
          (fun i => img (td.thread_img + ((i * d + j : Nat) : Int))) / (s : ℚ))).sum
      = (Finset.range (rows_before s N n)).sum (fun i => dataset img (i * d + j)) / (s : ℚ) := by
  intro n
  induction n with
  | zero => simp [rows_before_zero]
  | succ n ih =>
    rw [List.range_succ, List.map_append, List.map_append, List.sum_append, ih,
      rows_before_succ, Finset.sum_range_add, add_div]
    simp only [List.map_cons, List.map_nil, List.sum_cons, List.sum_nil, add_zero,
      thread_data_of, dataset]
    congr 2
    apply Finset.sum_congr rfl
    intro i _
    congr 1
    push_cast
    ring

theorem thread_d_of_mem (s d N : Nat) (td : ThreadData)
    (h : td ∈ (List.range N).map (thread_data_of s d N)) : td.thread_d = d := by
  obtain ⟨r, _, rfl⟩ := List.mem_map.mp h
  rfl

/-- The shared mean for a given worker count, whatever the order in which
the workers take the mutex, when `s * d` fits an `int`. -/
theorem mean_at_barrier_eq (s d N : Nat) (img : Int → ℚ) (info : Nat → Int)
    (order : List ThreadData) (hN : 1 ≤ N) (hb : s * d ≤ 2147483647)
    (hinfo : ∀ r, r < N → info r = 0)
    (horder : order.Perm (set_threads_data s d N info N 0 0).1) (j : Nat) (hj : j < d) :
    mean_at_barrier s img order j = column_mean s d (dataset img) j := by
  rw [set_threads_data_main s d N info hN hb hinfo] at horder
  have hd : ∀ td, td ∈ order → td.thread_d = d :=
    fun td htd => thread_d_of_mem s d N td (horder.mem_iff.mp htd)
  unfold mean_at_barrier column_mean
  rw [foldl_mean_accumulate s d img j hj order _ hd, zero_add,
    (horder.map _).sum_eq, sum_contributions, rows_before_total s N hN]

/-- C5 (as amended): for every `s × d` dataset with `s ≥ 1` and
`s * d ≤ 2^31 - 1`, every worker count `N ≥ 1` and every order in which the
workers add their partial mean under the mutex, entry `j < d` of the shared
mean at the barrier of line 81 is the mean of column `j` of the dataset;
hence it is the same for any second worker count `N2 ≥ 1` and any order of
those workers. -/
theorem C5_mean_partition_invariant (s d N N2 : Nat) (img : Int → ℚ) (info info2 : Nat → Int)
    (order order2 : List ThreadData) (_hs : 1 ≤ s) (hb : s * d ≤ 2147483647)
    (hN : 1 ≤ N) (hinfo : ∀ r, r < N → info r = 0)
    (horder : order.Perm (set_threads_data s d N info N 0 0).1)
    (hN2 : 1 ≤ N2) (hinfo2 : ∀ r, r < N2 → info2 r = 0)
    (horder2 : order2.Perm (set_threads_data s d N2 info2 N2 0 0).1)
    (j : Nat) (hj : j < d) :
    mean_at_barrier s img order j = column_mean s d (dataset img) j
    ∧ mean_at_barrier s img order2 j = mean_at_barrier s img order j := by
  have h1 := mean_at_barrier_eq s d N img info order hN hb hinfo horder j hj
  have h2 := mean_at_barrier_eq s d N2 img info2 order2 hN2 hb hinfo2 horder2 j hj
  exact ⟨h1, by rw [h1, h2]⟩

/-- Witness for C5 as amended: the dataset with rows `[1,2,3], [4,5,6],
[7,8,9], [10,11,12]`, column 1, two workers taking the mutex in reverse rank
order, compared with three workers. -/
theorem C5_mean_partition_invariant_witness :
    mean_at_barrier 4 (fun k : Int => (k : ℚ) + 1)
        (set_threads_data 4 3 2 (fun _ => 0) 2 0 0).1.reverse 1
      = column_mean 4 3 (dataset (fun k : Int => (k : ℚ) + 1)) 1
    ∧ mean_at_barrier 4 (fun k : Int => (k : ℚ) + 1)
        (set_threads_data 4 3 3 (fun _ => 0) 3 0 0).1 1
      = mean_at_barrier 4 (fun k : Int => (k : ℚ) + 1)
        (set_threads_data 4 3 2 (fun _ => 0) 2 0 0).1.reverse 1 :=
  C5_mean_partition_invariant 4 3 2 3 (fun k : Int => (k : ℚ) + 1) (fun _ => 0) (fun _ => 0)
    (set_threads_data 4 3 2 (fun _ => 0) 2 0 0).1.reverse
    (set_threads_data 4 3 3 (fun _ => 0) 3 0 0).1
    (by decide) (by decide) (by decide) (fun _ _ => rfl) (List.reverse_perm _)
    (by decide) (fun _ _ => rfl) (List.Perm.refl _) 1 (by decide)

/-- The scenario of the specification: `s = 4`, `d = 3`, `N = 2`, rows
`[1,2,3], [4,5,6], [7,8,9], [10,11,12]`; the shared mean is
`[5.5, 6.5, 7.5]`. -/
theorem mean_at_barrier_scenario :
    mean_at_barrier 4 (fun k : Int => (k : ℚ) + 1)
        (set_threads_data 4 3 2 (fun _ => 0) 2 0 0).1 0 = 11 / 2
    ∧ mean_at_barrier 4 (fun k : Int => (k : ℚ) + 1)
        (set_threads_data 4 3 2 (fun _ => 0) 2 0 0).1 1 = 13 / 2
    ∧ mean_at_barrier 4 (fun k : Int => (k : ℚ) + 1)
        (set_threads_data 4 3 2 (fun _ => 0) 2 0 0).1 2 = 15 / 2 := by
  refine ⟨?_, ?_, ?_⟩ <;>
    simp [mean_at_barrier, mean_accumulate, accumulate_matrix, dataset_partial_mean,
      set_threads_data, int_wrap, Finset.sum_range_succ] <;>
    norm_num

/-- Column sum read by a worker whose rows all lie at non-negative element
indices of a memory holding 1 from index 0 on. -/
theorem sum_rows_inside (off : Int) (n d j : Nat) (h : 0 ≤ off) :
    (Finset.range n).sum
        (fun i => if 0 ≤ off + ((i * d + j : Nat) : Int) then (1 : ℚ) else 0) = n := by
  rw [Finset.sum_congr rfl (fun i _ => if_pos (by positivity))]
  simp

/-- Column sum read by a worker whose rows all lie at negative element
indices of a memory holding 0 below index 0. -/
theorem sum_rows_outside (off : Int) (n d j : Nat)
    (h : off + (((n - 1) * d + j : Nat) : Int) < 0) :
    (Finset.range n).sum
        (fun i => if 0 ≤ off + ((i * d + j : Nat) : Int) then (1 : ℚ) else 0) = 0 := by
  apply Finset.sum_eq_zero
  intro i hi
  have hi2 : i ≤ n - 1 := by have := Finset.mem_range.mp hi; omega
  have hle : i * d + j ≤ (n - 1) * d + j := Nat.add_le_add_right (Nat.mul_le_mul_right d hi2) j
  have hle2 : ((i * d + j : Nat) : Int) ≤ (((n - 1) * d + j : Nat) : Int) := by exact_mod_cast hle
  rw [if_neg (by omega)]

/-- The shared mean after four workers, in terms of the column sums each
of them reads. -/
theorem mean_at_barrier_four (s d : Nat) (img : Int → ℚ) (j : Nat) (hj : j < d)
    (o0 o1 o2 o3 : Int) (n0 n1 n2 n3 r0 r1 r2 r3 : Nat) :
    mean_at_barrier s img
        [{ thread_img := o0, thread_s := n0, thread_d := d, rank := r0 },
          { thread_img := o1, thread_s := n1, thread_d := d, rank := r1 },
          { thread_img := o2, thread_s := n2, thread_d := d, rank := r2 },
          { thread_img := o3, thread_s := n3, thread_d := d, rank := r3 }] j
      = ((Finset.range n0).sum (fun i => img (o0 + ((i * d + j : Nat) : Int)))
          + (Finset.range n1).sum (fun i => img (o1 + ((i * d + j : Nat) : Int)))
          + (Finset.range n2).sum (fun i => img (o2 + ((i * d + j : Nat) : Int)))
          + (Finset.range n3).sum (fun i => img (o3 + ((i * d + j : Nat) : Int)))) / (s : ℚ) := by
  unfold mean_at_barrier
  rw [foldl_mean_accumulate s d img j hj _ _ (by
    intro td htd
    simp only [List.mem_cons, List.mem_singleton, List.not_mem_nil, or_false] at htd
    rcases htd with h | h | h | h <;> subst h <;> rfl)]
  simp only [List.map_cons, List.map_nil, List.sum_cons, List.sum_nil]
  ring

/-- The shared mean after four workers on a memory that holds 1 from index
0 on and 0 in front of it, when the first three workers read at
non-negative indices and the fourth only at negative ones. -/
theorem mean_at_barrier_four_outside (s d j : Nat) (hj : j < d)
    (o0 o1 o2 o3 : Int) (n0 n1 n2 n3 r0 r1 r2 r3 : Nat)
    (h0 : 0 ≤ o0) (h1 : 0 ≤ o1) (h2 : 0 ≤ o2)
    (h3 : o3 + (((n3 - 1) * d + j : Nat) : Int) < 0) :
    mean_at_barrier s (fun k : Int => if 0 ≤ k then (1 : ℚ) else 0)
        [{ thread_img := o0, thread_s := n0, thread_d := d, rank := r0 },
          { thread_img := o1, thread_s := n1, thread_d := d, rank := r1 },
          { thread_img := o2, thread_s := n2, thread_d := d, rank := r2 },
          { thread_img := o3, thread_s := n3, thread_d := d, rank := r3 }] j
      = ((n0 : ℚ) + (n1 : ℚ) + (n2 : ℚ) + 0) / (s : ℚ) := by
  rw [mean_at_barrier_four s d _ j hj]
  have e0 := sum_rows_inside o0 n0 d j h0
  have e1 := sum_rows_inside o1 n1 d j h1
  have e2 := sum_rows_inside o2 n2 d j h2
  have e3 := sum_rows_outside o3 n3 d j h3
  simp only [e0, e1, e2, e3]

/-- Column mean of a dataset whose entries are all 1. -/
theorem column_mean_ones (s d j : Nat) (hs : 1 ≤ s) :
    column_mean s d (dataset (fun k : Int => if 0 ≤ k then (1 : ℚ) else 0)) j = 1 := by
  unfold column_mean dataset
  have h := sum_rows_inside 0 s d j le_rfl
  simp only [zero_add] at h
  rw [h]
  have : (s : ℚ) ≠ 0 := by exact_mod_cast (by omega : s ≠ 0)
  exact div_self this

/-- C5 (counterexample to the claim as stated): a `65000 × 46000` image
whose entries are all 1, lying in a memory that holds 0 in front of the
image, on four workers.  Every column mean is 1.  The `int` offset of rank
3 has wrapped to `-2052467296`, that worker sums cells in front of the
image, and entry 0 of the shared mean is `3/4`. -/
theorem C5_mean_wrong_after_offset_overflow :
    mean_at_barrier 65000 (fun k : Int => if 0 ≤ k then (1 : ℚ) else 0)
        (set_threads_data 65000 46000 4 (fun _ => 0) 4 0 0).1 0 = 3 / 4
    ∧ column_mean 65000 46000 (dataset (fun k : Int => if 0 ≤ k then (1 : ℚ) else 0)) 0 = 1
    ∧ mean_at_barrier 65000 (fun k : Int => if 0 ≤ k then (1 : ℚ) else 0)
        (set_threads_data 65000 46000 4 (fun _ => 0) 4 0 0).1 0
      ≠ column_mean 65000 46000 (dataset (fun k : Int => if 0 ≤ k then (1 : ℚ) else 0)) 0 := by
  have hA : mean_at_barrier 65000 (fun k : Int => if 0 ≤ k then (1 : ℚ) else 0)
      (set_threads_data 65000 46000 4 (fun _ => 0) 4 0 0).1 0 = 3 / 4 := by
    rw [set_threads_data_overflow,
      mean_at_barrier_four_outside 65000 46000 0 (by decide) 0 747500000 1495000000
        (-2052467296) 16250 16250 16250 16250 0 1 2 3
        (by decide) (by decide) (by decide) (by decide)]
    norm_num
  have hB := column_mean_ones 65000 46000 0 (by decide)
  refine ⟨hA, hB, ?_⟩
  rw [hA, hB]
  norm_num

/-! ### Global extrema -/

/-- The scan of `get_local_extremes` over a list of indices: the first
component only decreases, is below every scanned entry, and is either the
initial value or a scanned entry; dually for the second component. -/
theorem scan_extremes (f : Nat → ℚ) : ∀ (l : List Nat) (acc : ℚ × ℚ),
    (l.foldl (fun acc k =>
        (if f k < acc.1 then f k else acc.1, if f k > acc.2 then f k else acc.2)) acc).1 ≤ acc.1
    ∧ (∀ k, k ∈ l → (l.foldl (fun acc k =>
        (if f k < acc.1 then f k else acc.1, if f k > acc.2 then f k else acc.2)) acc).1 ≤ f k)
    ∧ ((l.foldl (fun acc k =>
        (if f k < acc.1 then f k else acc.1, if f k > acc.2 then f k else acc.2)) acc).1 = acc.1
        ∨ ∃ k, k ∈ l ∧ f k = (l.foldl (fun acc k =>
        (if f k < acc.1 then f k else acc.1, if f k > acc.2 then f k else acc.2)) acc).1)
    ∧ acc.2 ≤ (l.foldl (fun acc k =>
        (if f k < acc.1 then f k else acc.1, if f k > acc.2 then f k else acc.2)) acc).2
    ∧ (∀ k, k ∈ l → f k ≤ (l.foldl (fun acc k =>
        (if f k < acc.1 then f k else acc.1, if f k > acc.2 then f k else acc.2)) acc).2)
    ∧ ((l.foldl (fun acc k =>
        (if f k < acc.1 then f k else acc.1, if f k > acc.2 then f k else acc.2)) acc).2 = acc.2
        ∨ ∃ k, k ∈ l ∧ f k = (l.foldl (fun acc k =>
        (if f k < acc.1 then f k else acc.1, if f k > acc.2 then f k else acc.2)) acc).2) := by
  intro l
  induction l with
  | nil => intro acc; simp
  | cons a rest ih =>
    intro acc
    obtain ⟨h1, h2, h3, h4, h5, h6⟩ :=
      ih (if f a < acc.1 then f a else acc.1, if f a > acc.2 then f a else acc.2)
    simp only [List.foldl_cons]
    have ha1 : (if f a < acc.1 then f a else acc.1) ≤ acc.1 := by
      split_ifs with h <;> [exact h.le; exact le_rfl]
    have ha1' : (if f a < acc.1 then f a else acc.1) ≤ f a := by
      split_ifs with h <;> [exact le_rfl; exact not_lt.mp h]
    have ha2 : acc.2 ≤ (if f a > acc.2 then f a else acc.2) := by
      split_ifs with h <;> [exact h.le; exact le_rfl]
    have ha2' : f a ≤ (if f a > acc.2 then f a else acc.2) := by
      split_ifs with h <;> [exact le_rfl; exact not_lt.mp h]
    refine ⟨h1.trans ha1, ?_, ?_, ha2.trans h4, ?_, ?_⟩
    · intro k hk
      rcases List.mem_cons.mp hk with rfl | hk
      · exact h1.trans ha1'
      · exact h2 k hk
    · rcases h3 with h3 | ⟨k, hk, e⟩
      · by_cases h : f a < acc.1
        · right; exact ⟨a, List.mem_cons_self _ _, by rw [h3]; simp [h]⟩
        · left; rw [h3]; simp [h]
      · right; exact ⟨k, List.mem_cons_of_mem _ hk, e⟩
    · intro k hk
      rcases List.mem_cons.mp hk with rfl | hk
      · exact ha2'.trans h4
      · exact h5 k hk
    · rcases h6 with h6 | ⟨k, hk, e⟩
      · by_cases h : f a > acc.2
        · right; exact ⟨a, List.mem_cons_self _ _, by rw [h6]; simp [h]⟩
        · left; rw [h6]; simp [h]
      · right; exact ⟨k, List.mem_cons_of_mem _ hk, e⟩

/-- What one worker does to the shared pair: the pair only widens, it
encloses every entry of the worker's partition, and each bound is either
the old bound or an entry of the partition. -/
theorem extremes_accumulate_spec (img : Int → ℚ) (g : ℚ × ℚ) (td : ThreadData)
    (hg1 : g.1 ≤ global_min_init) (hg2 : global_max_init ≤ g.2) :
    (extremes_accumulate img g td).1 ≤ g.1
    ∧ (∀ k, k < td.thread_s * td.thread_d →
        (extremes_accumulate img g td).1 ≤ img (td.thread_img + (k : Int)))
    ∧ ((extremes_accumulate img g td).1 = g.1
        ∨ ∃ k, k < td.thread_s * td.thread_d
            ∧ img (td.thread_img + (k : Int)) = (extremes_accumulate img g td).1)
    ∧ g.2 ≤ (extremes_accumulate img g td).2
    ∧ (∀ k, k < td.thread_s * td.thread_d →
        img (td.thread_img + (k : Int)) ≤ (extremes_accumulate img g td).2)
    ∧ ((extremes_accumulate img g td).2 = g.2
        ∨ ∃ k, k < td.thread_s * td.thread_d
            ∧ img (td.thread_img + (k : Int)) = (extremes_accumulate img g td).2) := by
  obtain ⟨h1, h2, h3, h4, h5, h6⟩ := scan_extremes (fun k : Nat => img (td.thread_img + (k : Int)))
    (List.range (td.thread_s * td.thread_d)) (DBL_MAX, DBL_MIN)
  have hmax : global_min_init < DBL_MAX := by norm_num [global_min_init, DBL_MAX]
  have hmin : DBL_MIN < global_max_init := by norm_num [global_max_init, DBL_MIN]
  simp only [extremes_accumulate, widen, get_local_extremes]
  simp only [List.mem_range] at h2 h3 h5 h6
  refine ⟨?_, ?_, ?_, ?_, ?_, ?_⟩
  · split_ifs with h <;> [exact h.le; exact le_rfl]
  · intro k hk
    split_ifs with h
    · exact h2 k hk
    · exact (not_lt.mp h).trans (h2 k hk)
  · by_cases h : g.1 > (List.foldl (fun acc (k : Nat) =>
        (if img (td.thread_img + (k : Int)) < acc.1 then img (td.thread_img + (k : Int)) else acc.1,
         if img (td.thread_img + (k : Int)) > acc.2 then img (td.thread_img + (k : Int)) else acc.2))
        (DBL_MAX, DBL_MIN) (List.range (td.thread_s * td.thread_d))).1
    · rw [if_pos h]
      rcases h3 with h3 | h3
      · exfalso
        rw [h3] at h
        exact absurd (lt_of_lt_of_le (lt_of_lt_of_le hmax h.le) hg1) (lt_irrefl _)
      · right; exact h3
    · rw [if_neg h]; left; rfl
  · split_ifs with h <;> [exact h.le; exact le_rfl]
  · intro k hk
    split_ifs with h
    · exact h5 k hk
    · exact (h5 k hk).trans (not_lt.mp h)
  · by_cases h : g.2 < (List.foldl (fun acc (k : Nat) =>
        (if img (td.thread_img + (k : Int)) < acc.1 then img (td.thread_img + (k : Int)) else acc.1,
         if img (td.thread_img + (k : Int)) > acc.2 then img (td.thread_img + (k : Int)) else acc.2))
        (DBL_MAX, DBL_MIN) (List.range (td.thread_s * td.thread_d))).2
    · rw [if_pos h]
      rcases h6 with h6 | h6
      · exfalso
        rw [h6] at h
        exact absurd (lt_of_le_of_lt hg2 (lt_of_lt_of_le h hmin.le)) (lt_irrefl _)
      · right; exact h6
    · rw [if_neg h]; left; rfl

/-- The shared pair after a sequence of workers. -/
theorem foldl_extremes_accumulate (img : Int → ℚ) : ∀ (order : List ThreadData) (g : ℚ × ℚ),
    g.1 ≤ global_min_init → global_max_init ≤ g.2 →
    (order.foldl (extremes_accumulate img) g).1 ≤ g.1
    ∧ (∀ td, td ∈ order → ∀ k, k < td.thread_s * td.thread_d →
        (order.foldl (extremes_accumulate img) g).1 ≤ img (td.thread_img + (k : Int)))
    ∧ ((order.foldl (extremes_accumulate img) g).1 = g.1
        ∨ ∃ td, td ∈ order ∧ ∃ k, k < td.thread_s * td.thread_d
            ∧ img (td.thread_img + (k : Int)) = (order.foldl (extremes_accumulate img) g).1)
    ∧ g.2 ≤ (order.foldl (extremes_accumulate img) g).2
    ∧ (∀ td, td ∈ order → ∀ k, k < td.thread_s * td.thread_d →
        img (td.thread_img + (k : Int)) ≤ (order.foldl (extremes_accumulate img) g).2)
    ∧ ((order.foldl (extremes_accumulate img) g).2 = g.2
        ∨ ∃ td, td ∈ order ∧ ∃ k, k < td.thread_s * td.thread_d
            ∧ img (td.thread_img + (k : Int)) = (order.foldl (extremes_accumulate img) g).2) := by
  intro order
  induction order with
  | nil => intro g _ _; simp
  | cons a rest ih =>
    intro g hg1 hg2
    obtain ⟨a1, a2, a3, a4, a5, a6⟩ := extremes_accumulate_spec img g a hg1 hg2
    obtain ⟨h1, h2, h3, h4, h5, h6⟩ :=
      ih (extremes_accumulate img g a) (a1.trans hg1) (hg2.trans a4)
    simp only [List.foldl_cons]
    refine ⟨h1.trans a1, ?_, ?_, a4.trans h4, ?_, ?_⟩
    · intro td htd k hk
      rcases List.mem_cons.mp htd with rfl | htd
      · exact h1.trans (a2 k hk)
      · exact h2 td htd k hk
    · rcases h3 with h3 | ⟨td, htd, k, hk, e⟩
      · rcases a3 with a3 | ⟨k, hk, e⟩
        · left; rw [h3, a3]
        · right; exact ⟨a, List.mem_cons_self _ _, k, hk, by rw [h3]; exact e⟩
      · right; exact ⟨td, List.mem_cons_of_mem _ htd, k, hk, e⟩
    · intro td htd k hk
      rcases List.mem_cons.mp htd with rfl | htd
      · exact (a5 k hk).trans h4
      · exact h5 td htd k hk
    · rcases h6 with h6 | ⟨td, htd, k, hk, e⟩
      · rcases a6 with a6 | ⟨k, hk, e⟩
        · left; rw [h6, a6]
        · right; exact ⟨a, List.mem_cons_self _ _, k, hk, by rw [h6]; exact e⟩
      · right; exact ⟨td, List.mem_cons_of_mem _ htd, k, hk, e⟩

/-- Every element index of the `s × d` dataset lies in the partition of some
rank. -/
theorem element_covered (s d N : Nat) (hN : 1 ≤ N) (k : Nat) (hk : k < s * d) :
    ∃ r, r < N ∧ ∃ i, i < (if r < s % N then s / N + 1 else s / N) * d
      ∧ d * rows_before s N r + i = k := by
  have hd : 0 < d := by
    rcases Nat.eq_zero_or_pos d with h | h
    · subst h; simp at hk
    · exact h
  have hrow : k / d < rows_before s N N := by
    rw [rows_before_total s N hN, Nat.div_lt_iff_lt_mul hd]; exact hk
  obtain ⟨q, hq, h1, h2⟩ := exists_block s N N (k / d) hrow
  rw [rows_before_succ] at h2
  have h1' : rows_before s N q * d ≤ k := (Nat.le_div_iff_mul_le hd).mp h1
  have h2' : k < (rows_before s N q + (if q < s % N then s / N + 1 else s / N)) * d :=
    (Nat.div_lt_iff_lt_mul hd).mp h2
  refine ⟨q, hq, k - d * rows_before s N q, ?_, ?_⟩
  · rw [Nat.add_mul] at h2'
    rw [Nat.mul_comm d]
    omega
  · rw [Nat.mul_comm d]
    omega

/-- The partition of every rank lies inside the `s × d` dataset. -/
theorem element_in_bounds (s d N : Nat) (hN : 1 ≤ N) (r : Nat) (hr : r < N) (i : Nat)
    (hi : i < (if r < s % N then s / N + 1 else s / N) * d) :
    d * rows_before s N r + i < s * d := by
  have h := block_end_le s d N hN r hr
  omega

/-- The shared pair at the barrier of line 149 encloses the initial range
`[0, 255.99]` and every entry of the dataset, and each of its bounds is the
initial bound or an entry of the dataset, when `s * d` fits an `int`. -/
theorem extremes_at_barrier_spec (s d N : Nat) (img : Int → ℚ) (info : Nat → Int)
    (order : List ThreadData) (hN : 1 ≤ N) (hb : s * d ≤ 2147483647)
    (hinfo : ∀ r, r < N → info r = 0)
    (horder : order.Perm (set_threads_data s d N info N 0 0).1) :
    (extremes_at_barrier img order).1 ≤ global_min_init
    ∧ (∀ k, k < s * d → (extremes_at_barrier img order).1 ≤ dataset img k)
    ∧ ((extremes_at_barrier img order).1 = global_min_init
        ∨ ∃ k, k < s * d ∧ dataset img k = (extremes_at_barrier img order).1)
    ∧ global_max_init ≤ (extremes_at_barrier img order).2
    ∧ (∀ k, k < s * d → dataset img k ≤ (extremes_at_barrier img order).2)
    ∧ ((extremes_at_barrier img order).2 = global_max_init
        ∨ ∃ k, k < s * d ∧ dataset img k = (extremes_at_barrier img order).2) := by
  rw [set_threads_data_main s d N info hN hb hinfo] at horder
  obtain ⟨h1, h2, h3, h4, h5, h6⟩ :=
    foldl_extremes_accumulate img order (global_min_init, global_max_init) le_rfl le_rfl
  have hmem : ∀ r, r < N → thread_data_of s d N r ∈ order := fun r hr =>
    horder.mem_iff.mpr (List.mem_map.mpr ⟨r, List.mem_range.mpr hr, rfl⟩)
  have hof : ∀ td, td ∈ order → ∃ r, r < N ∧ thread_data_of s d N r = td := fun td htd => by
    obtain ⟨r, hr, e⟩ := List.mem_map.mp (horder.mem_iff.mp htd)
    exact ⟨r, List.mem_range.mp hr, e⟩
  have hcell : ∀ r i k, d * rows_before s N r + i = k →
      img ((thread_data_of s d N r).thread_img + (i : Int)) = dataset img k := by
    intro r i k e
    simp only [thread_data_of, dataset]
    congr 1
    exact_mod_cast e
  unfold extremes_at_barrier
  refine ⟨h1, ?_, ?_, h4, ?_, ?_⟩
  · intro k hk
    obtain ⟨r, hr, i, hi, e⟩ := element_covered s d N hN k hk
    rw [← hcell r i k e]
    exact h2 _ (hmem r hr) i hi
  · rcases h3 with h3 | ⟨td, htd, i, hi, e⟩
    · left; exact h3
    · obtain ⟨r, hr, rfl⟩ := hof td htd
      right
      exact ⟨_, element_in_bounds s d N hN r hr i hi, by rw [← hcell r i _ rfl]; exact e⟩
  · intro k hk
    obtain ⟨r, hr, i, hi, e⟩ := element_covered s d N hN k hk
    rw [← hcell r i k e]
    exact h5 _ (hmem r hr) i hi
  · rcases h6 with h6 | ⟨td, htd, i, hi, e⟩
    · left; exact h6
    · obtain ⟨r, hr, rfl⟩ := hof td htd
      right
      exact ⟨_, element_in_bounds s d N hN r hr i hi, by rw [← hcell r i _ rfl]; exact e⟩

/-- C4 (as amended): under style 1, for every `s × d` dataset with
`s * d ≤ 2^31 - 1`, every `N ≥ 1` and every order in which the workers
widen the shared pair, the pair passed to `rescale_image` is
`(min(0.0, m), max(255.99, M))` where `m` and `M` are the true minimum and
maximum of the pre-rescale dataset: the initial values `0.0` and `255.99`
of `global_min` and `global_max` take part in the extrema.  For an empty
dataset the pair is `(0.0, 255.99)`. -/
theorem C4_extremes_with_initial_range (s d N : Nat) (img : Int → ℚ) (info : Nat → Int)
    (order : List ThreadData) (hN : 1 ≤ N) (hb : s * d ≤ 2147483647)
    (hinfo : ∀ r, r < N → info r = 0)
    (horder : order.Perm (set_threads_data s d N info N 0 0).1) :
    (∀ m, is_true_min (dataset img) (s * d) m →
        (extremes_at_barrier img order).1 = min global_min_init m)
    ∧ (∀ M, is_true_max (dataset img) (s * d) M →
        (extremes_at_barrier img order).2 = max global_max_init M)
    ∧ (s * d = 0 → extremes_at_barrier img order = (global_min_init, global_max_init)) := by
  obtain ⟨h1, h2, h3, h4, h5, h6⟩ :=
    extremes_at_barrier_spec s d N img info order hN hb hinfo horder
  refine ⟨?_, ?_, ?_⟩
  · rintro m ⟨⟨k0, hk0, e0⟩, hm⟩
    apply le_antisymm
    · exact le_min h1 (e0 ▸ h2 k0 hk0)
    · rcases h3 with h3 | ⟨k, hk, e⟩
      · rw [h3]; exact min_le_left _ _
      · rw [← e]; exact (min_le_right _ _).trans (hm k hk)
  · rintro M ⟨⟨k0, hk0, e0⟩, hM⟩
    apply le_antisymm
    · rcases h6 with h6 | ⟨k, hk, e⟩
      · rw [h6]; exact le_max_left _ _
      · rw [← e]; exact (hM k hk).trans (le_max_right _ _)
    · exact max_le h4 (e0 ▸ h5 k0 hk0)
  · intro h0
    have e1 : (extremes_at_barrier img order).1 = global_min_init := by
      rcases h3 with h3 | ⟨k, hk, _⟩
      · exact h3
      · omega
    have e2 : (extremes_at_barrier img order).2 = global_max_init := by
      rcases h6 with h6 | ⟨k, hk, _⟩
      · exact h6
      · omega
    exact Prod.ext e1 e2

/-- Witness for C4 as amended: a `2 × 2` dataset on two workers, the second
worker widening first. -/
theorem C4_extremes_with_initial_range_witness :
    (∀ m, is_true_min (dataset (fun k : Int => (100 : ℚ) * k - 50)) (2 * 2) m →
        (extremes_at_barrier (fun k : Int => (100 : ℚ) * k - 50)
          (set_threads_data 2 2 2 (fun _ => 0) 2 0 0).1.reverse).1 = min global_min_init m)
    ∧ (∀ M, is_true_max (dataset (fun k : Int => (100 : ℚ) * k - 50)) (2 * 2) M →
        (extremes_at_barrier (fun k : Int => (100 : ℚ) * k - 50)
          (set_threads_data 2 2 2 (fun _ => 0) 2 0 0).1.reverse).2 = max global_max_init M)
    ∧ (2 * 2 = 0 → extremes_at_barrier (fun k : Int => (100 : ℚ) * k - 50)
          (set_threads_data 2 2 2 (fun _ => 0) 2 0 0).1.reverse
        = (global_min_init, global_max_init)) :=
  C4_extremes_with_initial_range 2 2 2 (fun k : Int => (100 : ℚ) * k - 50) (fun _ => 0)
    (set_threads_data 2 2 2 (fun _ => 0) 2 0 0).1.reverse
    (by decide) (by decide) (fun _ _ => rfl) (List.reverse_perm _)

/-- C4 (counterexample to the claim as stated): the `1 × 2` dataset
`[10, 20]` on one worker.  The true minimum is 10 and the true maximum is
20, but the pair passed to `rescale_image` is `(0, 255.99)`: neither test
`global_min > local_min` nor `global_max < local_max` succeeds. -/
theorem C4_extremes_not_true_extremes :
    extremes_at_barrier (fun k : Int => if k = 0 then (10 : ℚ) else 20)
        (set_threads_data 1 2 1 (fun _ => 0) 1 0 0).1 = (0, 25599 / 100)
    ∧ is_true_min (dataset (fun k : Int => if k = 0 then (10 : ℚ) else 20)) (1 * 2) 10
    ∧ is_true_max (dataset (fun k : Int => if k = 0 then (10 : ℚ) else 20)) (1 * 2) 20
    ∧ ¬ (is_true_min (dataset (fun k : Int => if k = 0 then (10 : ℚ) else 20)) (1 * 2)
          (extremes_at_barrier (fun k : Int => if k = 0 then (10 : ℚ) else 20)
            (set_threads_data 1 2 1 (fun _ => 0) 1 0 0).1).1
        ∧ is_true_max (dataset (fun k : Int => if k = 0 then (10 : ℚ) else 20)) (1 * 2)
          (extremes_at_barrier (fun k : Int => if k = 0 then (10 : ℚ) else 20)
            (set_threads_data 1 2 1 (fun _ => 0) 1 0 0).1).2) := by
  have hG : extremes_at_barrier (fun k : Int => if k = 0 then (10 : ℚ) else 20)
      (set_threads_data 1 2 1 (fun _ => 0) 1 0 0).1 = (0, 25599 / 100) := by
    simp [extremes_at_barrier, extremes_accumulate, widen, get_local_extremes,
      set_threads_data, List.range_succ, DBL_MAX, DBL_MIN, global_min_init, global_max_init]
    norm_num
  refine ⟨hG, ?_, ?_, ?_⟩
  · refine ⟨⟨0, by decide, by simp [dataset]⟩, ?_⟩
    intro k _
    show _ ≤ (if (k : Int) = 0 then (10 : ℚ) else 20)
    split_ifs <;> norm_num
  · refine ⟨⟨1, by decide, by simp [dataset]⟩, ?_⟩
    intro k _
    show (if (k : Int) = 0 then (10 : ℚ) else 20) ≤ _
    split_ifs <;> norm_num
  · rw [hG]
    rintro ⟨⟨⟨k, _, e⟩, _⟩, _⟩
    have e2 : (if (k : Int) = 0 then (10 : ℚ) else 20) = 0 := e
    split_ifs at e2 <;> norm_num at e2

/-- Beyond the bound of C4 as amended: a `65000 × 46000` image whose entries
are all 1, in a memory that holds `-7` in front of the image, on four
workers.  The true minimum is 1, so `min(0.0, m) = 0`, but rank 3, whose
`int` offset has wrapped to `-2052467296`, scans cells in front of the
image and `global_min` ends at or below `-7`. -/
theorem extremes_after_offset_overflow :
    (extremes_at_barrier (fun k : Int => if 0 ≤ k then (1 : ℚ) else -7)
        (set_threads_data 65000 46000 4 (fun _ => 0) 4 0 0).1).1 ≤ -7 := by
  rw [set_threads_data_overflow]
  have h := (foldl_extremes_accumulate (fun k : Int => if 0 ≤ k then (1 : ℚ) else -7)
    [{ thread_img := 0, thread_s := 16250, thread_d := 46000, rank := 0 },
      { thread_img := 747500000, thread_s := 16250, thread_d := 46000, rank := 1 },
      { thread_img := 1495000000, thread_s := 16250, thread_d := 46000, rank := 2 },
      { thread_img := -2052467296, thread_s := 16250, thread_d := 46000, rank := 3 }]
    (global_min_init, global_max_init) le_rfl le_rfl).2.1
    { thread_img := -2052467296, thread_s := 16250, thread_d := 46000, rank := 3 }
    (by simp) 0 (by decide)
  exact h

/-! ### The barrier without spurious wakeups -/

theorem count_before_map_on_broadcast (l : List Pc) :
    (l.map Pc.on_broadcast).count Pc.before = l.count Pc.before := by
  induction l with
  | nil => rfl
  | cons a rest ih =>
    cases a <;> simp [Pc.on_broadcast, List.count_cons, ih]

theorem barrier_inv_init (N : Nat) : barrier_inv N (barrier_init N) := by
  refine ⟨by simp [barrier_init], Or.inl ⟨?_, ?_⟩⟩
  · simp [barrier_init, List.count_replicate]
  · intro p hp
    left
    exact List.eq_of_mem_replicate hp

theorem barrier_inv_step (N : Nat) (st st2 : BarrierState) (e : BarrierStep)
    (hinv : barrier_inv N st) (he : e.is_spurious = false)
    (hstep : barrier_step N st e = some st2) : barrier_inv N st2 := by
  obtain ⟨hlen, hph⟩ := hinv
  cases e with
  | spurious_wakeup i => simp [BarrierStep.is_spurious] at he
  | resume i =>
    simp only [barrier_step] at hstep
    split_ifs at hstep with hi
    simp only [Option.some.injEq] at hstep
    subst hstep
    have hmem : Pc.signalled ∈ st.pc := List.mem_iff_getElem?.mpr ⟨i, hi⟩
    refine ⟨by simpa using hlen, ?_⟩
    rcases hph with ⟨_, hA⟩ | hB
    · rcases hA _ hmem with h | h <;> cases h
    · right
      intro p hp
      rcases List.mem_or_eq_of_mem_set hp with h | h
      · exact hB p h
      · right; exact h
  | call i =>
    simp only [barrier_step] at hstep
    split_ifs at hstep with hi ha
    · -- last arrival: broadcast
      simp only [Option.some.injEq] at hstep
      subst hstep
      have hmem : Pc.before ∈ st.pc := List.mem_iff_getElem?.mpr ⟨i, hi⟩
      have hil : i < st.pc.length := by
        by_contra hcon
        rw [List.getElem?_eq_none (by omega)] at hi
        cases hi
      have hget : st.pc[i] = Pc.before := by
        rw [List.getElem?_eq_getElem hil] at hi
        exact Option.some.inj hi
      refine ⟨by simpa using hlen, ?_⟩
      rcases hph with ⟨hcnt, hA⟩ | hB
      · right
        have hN : st.barrier_counter + 1 = N := by
          by_contra hc
          simp [arrive, hc] at ha
        have hone : st.pc.count Pc.before = 1 := by omega
        have hzero : ((st.pc.map Pc.on_broadcast).set i Pc.returned).count Pc.before = 0 := by
          rw [List.count_set _ _ _ _ (by simpa using hil), count_before_map_on_broadcast, hone]
          simp [hget, Pc.on_broadcast]
        have hnot : Pc.before ∉ (st.pc.map Pc.on_broadcast).set i Pc.returned :=
          List.count_eq_zero.mp hzero
        intro p hp
        rcases List.mem_or_eq_of_mem_set hp with h | h
        · obtain ⟨q, hq, rfl⟩ := List.mem_map.mp h
          rcases hA q hq with rfl | rfl
          · exact absurd hp hnot
          · left; rfl
        · right; exact h
      · rcases hB _ hmem with h | h <;> cases h
    · -- not the last arrival: wait
      simp only [Option.some.injEq] at hstep
      subst hstep
      have hmem : Pc.before ∈ st.pc := List.mem_iff_getElem?.mpr ⟨i, hi⟩
      have hil : i < st.pc.length := by
        by_contra hcon
        rw [List.getElem?_eq_none (by omega)] at hi
        cases hi
      have hget : st.pc[i] = Pc.before := by
        rw [List.getElem?_eq_getElem hil] at hi
        exact Option.some.inj hi
      refine ⟨by simpa using hlen, ?_⟩
      rcases hph with ⟨hcnt, hA⟩ | hB
      · left
        have hne : ¬ st.barrier_counter + 1 = N := by
          intro hc
          simp [arrive, hc] at ha
        have hc : (arrive N st.barrier_counter).1 = st.barrier_counter + 1 := by
          simp [arrive, hne]
        have hpos : 0 < st.pc.count Pc.before := List.count_pos_iff.mpr hmem
        refine ⟨?_, ?_⟩
        · show (arrive N st.barrier_counter).1 + (st.pc.set i Pc.waiting).count Pc.before = N
          rw [hc, List.count_set _ _ _ _ hil]
          simp [hget]
          omega
        · intro p hp
          rcases List.mem_or_eq_of_mem_set hp with h | h
          · exact hA p h
          · right; exact h
      · rcases hB _ hmem with h | h <;> cases h

theorem barrier_inv_run (N : Nat) : ∀ (sched : List BarrierStep) (st st2 : BarrierState),
    barrier_inv N st → (∀ e, e ∈ sched → e.is_spurious = false) →
    barrier_run N st sched = some st2 → barrier_inv N st2 := by
  intro sched
  induction sched with
  | nil =>
    intro st st2 hinv _ hrun
    simp only [barrier_run, Option.some.injEq] at hrun
    subst hrun; exact hinv
  | cons e es ih =>
    intro st st2 hinv hns hrun
    simp only [barrier_run] at hrun
    cases hstep : barrier_step N st e with
    | none => rw [hstep] at hrun; cases hrun
    | some st1 =>
      rw [hstep] at hrun
      exact ih st1 st2
        (barrier_inv_step N st st1 e hinv (hns e (List.mem_cons_self _ _)) hstep)
        (fun x hx => hns x (List.mem_cons_of_mem _ hx)) hrun

/-- In a phase without spurious wakeups the barrier is safe: in every
reachable state, if a call of `barrier` has returned then all `N` workers
have called it. -/
theorem barrier_safe_without_spurious (N : Nat) (sched : List BarrierStep) (st : BarrierState)
    (hns : ∀ e, e ∈ sched → e.is_spurious = false)
    (hrun : barrier_run N (barrier_init N) sched = some st) : barrier_safe st := by
  obtain ⟨_, hph⟩ := barrier_inv_run N sched _ st (barrier_inv_init N) hns hrun
  intro hret hbef
  rcases hph with ⟨_, hA⟩ | hB
  · rcases hA _ hret with h | h <;> cases h
  · rcases hB _ hbef with h | h <;> cases h

end ParallelPCA
